import Mathlib

/-!
Shallow embedding of the identity-matching core of PersonSearch.py:
name-variation generation, URL identity-handle extraction, fuzzy matching,
relevance scoring, deduplication and ranking, together with proofs of the
specification claims about them.

Python strings are modelled as Lean `String` (a wrapper around `List Char`);
Python `str.lower` is modelled charwise on ASCII (`lowerChar`); the rapidfuzz
similarity metric is abstracted as an explicit parameter `sim`, since no claim
depends on its concrete values.
-/

/-- ASCII uppercase predicate (codes 65..90), modelling "uppercase letter". -/
def isUpperAZ (c : Char) : Prop := 65 ≤ c.toNat ∧ c.toNat ≤ 90

instance (c : Char) : Decidable (isUpperAZ c) := by
  unfold isUpperAZ; infer_instance

/-- Models Python `str.lower` on one character (ASCII range). -/
def lowerChar (c : Char) : Char :=
  if 65 ≤ c.toNat ∧ c.toNat ≤ 90 then Char.ofNat (c.toNat + 32) else c

/-- Models Python `str.lower`, applied charwise. -/
def lowerStr (s : String) : String := ⟨s.data.map lowerChar⟩

/-- Models the Python substring test `needle in hay` on char lists. -/
def infixOfList (needle hay : List Char) : Bool := decide (needle <:+: hay)

/-- Models the Python substring test `needle in hay`. -/
def containsSub (hay needle : String) : Bool := infixOfList needle.data hay.data

/-- Models Python `s.replace(" ", sep)` (single-character pattern). -/
def replaceSpaces (s : String) (sep : String) : String :=
  ⟨s.data.flatMap (fun c => if c = ' ' then sep.data else [c])⟩

/-- Models Python `str.split(sep)` for a one-character separator:
`"a//b".split("/") = ["a", "", "b"]`, `"".split("/") = [""]`. -/
def splitOnChar (sep : Char) : List Char → List (List Char)
  | [] => [[]]
  | c :: tl =>
    match splitOnChar sep tl with
    | [] => [[c]]
    | h :: t => if c = sep then [] :: h :: t else (c :: h) :: t

/-- Models Python `path.strip("/")`. -/
def stripSlashes (cs : List Char) : List Char :=
  ((cs.dropWhile (fun c => decide (c = '/'))).reverse.dropWhile
    (fun c => decide (c = '/'))).reverse

/-- The last `'/'`-separated segment of a char list (everything after the last
`'/'`, or the whole list when it has no `'/'`). -/
def lastSegPart (cs : List Char) : List Char :=
  (cs.reverse.takeWhile (fun c => decide (c ≠ '/'))).reverse

/-- Models urllib's `_splitparams`: `urlparse` drops a `";params"` suffix from the
last path segment when the path contains a `';'`. -/
def splitParams (cs : List Char) : List Char :=
  if ';' ∈ cs then
    if '/' ∈ cs then
      if ';' ∈ lastSegPart cs then
        cs.take (cs.length - (lastSegPart cs).length) ++
          (lastSegPart cs).takeWhile (fun c => decide (c ≠ ';'))
      else cs
    else cs.takeWhile (fun c => decide (c ≠ ';'))
  else cs

/-- The scheme/netloc/path triple produced by url parsing (query, fragment and
params are split off and discarded: `extract_username_from_url` uses only
`netloc` and `path`). -/
structure UrlParts where
  scheme : List Char
  netloc : List Char
  path : List Char

/-- Characters allowed in a URL scheme (urllib's `scheme_chars`). -/
def isSchemeChar (c : Char) : Bool :=
  decide (('a' ≤ c ∧ c ≤ 'z') ∨ ('A' ≤ c ∧ c ≤ 'Z') ∨ ('0' ≤ c ∧ c ≤ '9') ∨
    c = '+' ∨ c = '-' ∨ c = '.')

def isAsciiLetter (c : Char) : Bool :=
  decide (('a' ≤ c ∧ c ≤ 'z') ∨ ('A' ≤ c ∧ c ≤ 'Z'))

/-- WHATWG cleanup performed by CPython's `urlsplit`: lstrip of
C0-control-or-space, then removal of tab, CR and LF everywhere. -/
def cleanUrl (cs0 : List Char) : List Char :=
  (cs0.dropWhile (fun c => decide (c.toNat ≤ 32))).filter
    (fun c => decide (c ≠ '\t' ∧ c ≠ '\n' ∧ c ≠ '\r'))

/-- Whether the URL starts with a scheme: a `':'` preceded by a nonempty,
letter-initial run of scheme characters. -/
def schemeOkB (cs : List Char) : Bool :=
  let pre := cs.takeWhile (fun c => decide (c ≠ ':'))
  (decide (pre.length < cs.length)) &&
    (match pre with | c :: _ => isAsciiLetter c | [] => false) &&
    pre.all isSchemeChar

/-- The scheme component (empty when the URL has none). -/
def schemePart (cs : List Char) : List Char :=
  if schemeOkB cs = true then cs.takeWhile (fun c => decide (c ≠ ':')) else []

/-- The URL with its scheme and the following `':'` removed. -/
def afterScheme (cs : List Char) : List Char :=
  if schemeOkB cs = true then
    cs.drop ((cs.takeWhile (fun c => decide (c ≠ ':'))).length + 1)
  else cs

/-- The netloc: after a leading `"//"`, up to the next `'/'`, `'?'` or `'#'`. -/
def netlocOf (rest : List Char) : List Char :=
  if ['/', '/'] <+: rest then
    (rest.drop 2).takeWhile (fun c => decide (c ≠ '/' ∧ c ≠ '?' ∧ c ≠ '#'))
  else []

/-- What follows the netloc (the URL unchanged when there is no `"//"`). -/
def afterNetloc (rest : List Char) : List Char :=
  if ['/', '/'] <+: rest then (rest.drop 2).drop (netlocOf rest).length else rest

/-- Models CPython `urllib.parse.urlparse` restricted to scheme, netloc and path:
WHATWG cleanup, then the scheme split at the first `':'` (letter-initial,
scheme chars only), the netloc after `"//"` up to `'/'`, `'?'` or `'#'`, then
fragment split at `'#'`, query split at `'?'`, and the params split on the last
segment. -/
def urlparseChars (cs0 : List Char) : UrlParts :=
  let cs := cleanUrl cs0
  let rest := afterScheme cs
  let rest2 := afterNetloc rest
  let rest3 := rest2.takeWhile (fun c => decide (c ≠ '#'))
  let rest4 := rest3.takeWhile (fun c => decide (c ≠ '?'))
  ⟨schemePart cs, netlocOf rest, splitParams rest4⟩

/-- The Facebook reserved words (`skip_words` in the source). -/
def skipWordsFb : List (List Char) :=
  ["profile", "people", "pages", "public", "home", "watch", "marketplace"].map
    String.data

/-- The generic-fallback reserved segments (`skip_segments` in the source). -/
def skipSegmentsGen : List (List Char) :=
  ["profile", "people", "pages", "public", "p", "reel", "stories", "home",
    "watch", "marketplace", "events", "groups", "photos", "posts"].map String.data

/-- Facebook content-link markers. -/
def fbContent : List (List Char) :=
  ["/photos/", "/events/", "/groups/", "/posts/"].map String.data

/-- Instagram content-link markers. -/
def igContent : List (List Char) :=
  ["/p/", "/reel/", "/stories/", "/tv/"].map String.data

/-- The strings the first Instagram path segment is tested against
(`segments[0] in x for x in ["p/", "reel/", "stories/"]`, a substring test). -/
def igFirstSeg : List (List Char) := ["p/", "reel/", "stories/"].map String.data

/-- Models Python `str.isdigit` (ASCII digits). -/
def pyIsDigit (u : List Char) : Bool :=
  (decide (u ≠ [])) && u.all (fun c => decide ('0' ≤ c ∧ c ≤ '9'))

/-- Models `re.search("<lit>([^/?]+)", cs)`: scan positions left to right; at the
first position where the literal matches and is followed by at least one
character other than `'/'` and `'?'`, capture the maximal such run. -/
def searchLit (lit : List Char) : List Char → Option (List Char)
  | [] => none
  | c :: tl =>
    if lit <+: (c :: tl) ∧
        ((c :: tl).drop lit.length).takeWhile
          (fun d => decide (d ≠ '/' ∧ d ≠ '?')) ≠ [] then
      some (((c :: tl).drop lit.length).takeWhile
        (fun d => decide (d ≠ '/' ∧ d ≠ '?')))
    else searchLit lit tl

/-- Like `searchLit` but with two alternative literals, modelling
`re.search("/(?:pages|public)/([^/?]+)", cs)`. -/
def searchLit2 (l1 l2 : List Char) : List Char → Option (List Char)
  | [] => none
  | c :: tl =>
    if l1 <+: (c :: tl) ∧
        ((c :: tl).drop l1.length).takeWhile
          (fun d => decide (d ≠ '/' ∧ d ≠ '?')) ≠ [] then
      some (((c :: tl).drop l1.length).takeWhile
        (fun d => decide (d ≠ '/' ∧ d ≠ '?')))
    else if l2 <+: (c :: tl) ∧
        ((c :: tl).drop l2.length).takeWhile
          (fun d => decide (d ≠ '/' ∧ d ≠ '?')) ≠ [] then
      some (((c :: tl).drop l2.length).takeWhile
        (fun d => decide (d ≠ '/' ∧ d ≠ '?')))
    else searchLit2 l1 l2 tl

/-- Models `re.sub("-[0-9a-z]+$", "", u)`: if the suffix after the last `'-'` is
nonempty and consists only of ASCII digits and lowercase letters, drop it
together with that `'-'`; otherwise return `u` unchanged. -/
def stripNumericSuffix (u : List Char) : List Char :=
  let rev := u.reverse
  let run := rev.takeWhile
    (fun c => decide (('0' ≤ c ∧ c ≤ '9') ∨ ('a' ≤ c ∧ c ≤ 'z')))
  match rev.drop run.length with
  | '-' :: _ => if run ≠ [] then (rev.drop (run.length + 1)).reverse else u
  | _ => u

/-- Capture of `re.search("/([^/?]+)/?$", "/" + path)`: the last nonempty
`'/'`-separated segment of the (already `'/'`-stripped) path. -/
def lastSegOf (cs : List Char) : Option (List Char) :=
  ((splitOnChar '/' cs).filter (fun s => decide (s ≠ []))).getLast?

/-- One LinkedIn pattern attempt: on a capture, strip the numeric suffix and
accept only a nonempty result of length > 1 (else fall to the next pattern). -/
def tryLinkedinPat (cap : Option (List Char)) : Option (List Char) :=
  match cap with
  | some c =>
    let u := stripNumericSuffix c
    if u ≠ [] ∧ 1 < u.length then some u else none
  | none => none

/-- The LinkedIn branch: patterns `"/in/([^/?]+)"`, `"/pub/([^/?]+)"`,
`"/([^/?]+)/?$"` searched in `"/" + path`, in order; `none` means no pattern
returned, so control falls through to the generic fallback. -/
def linkedinRules (path : List Char) : Option (List Char) :=
  match tryLinkedinPat (searchLit "/in/".data ('/' :: path)) with
  | some u => some u
  | none =>
    match tryLinkedinPat (searchLit "/pub/".data ('/' :: path)) with
    | some u => some u
    | none => tryLinkedinPat (lastSegOf path)

/-- The Facebook username checks: nonempty, not all digits, not a reserved word,
length > 1. -/
def fbCheck (u : List Char) : Bool :=
  (decide (u ≠ [])) && !(pyIsDigit u) && (decide (u ∉ skipWordsFb)) &&
    (decide (1 < u.length))

def tryFbPat (cap : Option (List Char)) : Option (List Char) :=
  match cap with
  | some u => if fbCheck u then some u else none
  | none => none

/-- Capture of the anchored pattern `"^/([^/?]+)(?:\\?|$)"` on `"/" + path`:
the leading run of non-`'/'`/non-`'?'` characters of `path`, accepted only when
nonempty and followed by end-of-string or `'?'` (not `'/'`). -/
def fbBareSeg (path : List Char) : Option (List Char) :=
  let run := path.takeWhile (fun c => decide (c ≠ '/' ∧ c ≠ '?'))
  let ok : Bool :=
    (decide (run ≠ [])) &&
      (match path.drop run.length with
       | [] => true
       | '?' :: _ => true
       | _ => false)
  if ok then some run else none

/-- The Facebook branch: reject content links outright (returning the empty
username), else try the bare leading segment, `"/people/([^/?]+)"` and
`"/(?:pages|public)/([^/?]+)"`; `none` falls through to the generic fallback. -/
def facebookRules (path : List Char) : Option (List Char) :=
  if fbContent.any (fun x => infixOfList x path) then some []
  else
    match tryFbPat (fbBareSeg path) with
    | some u => some u
    | none =>
      match tryFbPat (searchLit "/people/".data ('/' :: path)) with
      | some u => some u
      | none => tryFbPat (searchLit2 "/pages/".data "/public/".data ('/' :: path))

/-- The Instagram branch: reject content links outright (returning the empty
username), else accept the first path segment when it is not a substring of any
of `"p/"`, `"reel/"`, `"stories/"`, is not all digits and has length > 1;
`none` falls through to the generic fallback. -/
def instagramRules (path : List Char) : Option (List Char) :=
  if igContent.any (fun x => infixOfList x path) then some []
  else
    match (splitOnChar '/' path).filter (fun s => decide (s ≠ [])) with
    | [] => none
    | seg0 :: _ =>
      if !(igFirstSeg.any (fun x => infixOfList seg0 x)) then
        if (decide (seg0 ≠ [])) && !(pyIsDigit seg0) && (decide (1 < seg0.length))
        then some seg0 else none
      else none

/-- The generic-fallback acceptance test: nonempty, not all digits, not a
reserved segment, length > 1, and containing at least one letter `[a-z]`. -/
def genericOk (s : List Char) : Bool :=
  (decide (s ≠ [])) && !(pyIsDigit s) && (decide (s ∉ skipSegmentsGen)) &&
    (decide (1 < s.length)) && s.any (fun c => decide ('a' ≤ c ∧ c ≤ 'z'))

/-- The generic fallback: scan path segments from last to first and return the
first acceptable one. -/
def genericFallback (path : List Char) : Option (List Char) :=
  (((splitOnChar '/' path).filter (fun s => decide (s ≠ []))).reverse).find?
    genericOk

/-- Embedding of `PersonSearch.extract_username_from_url`: lowercase the URL,
parse it, strip `'/'` from the path, run the domain-specific rules (LinkedIn,
Facebook/fb, Instagram) and, when none of them returned, the generic fallback. -/
def extract_username_from_url (url : String) : String :=
  if url = "" then ""
  else
    let lurl := (lowerStr url).data
    let p := urlparseChars lurl
    let path := stripSlashes p.path
    let domain := p.netloc
    let plat : Option (List Char) :=
      if infixOfList "linkedin.com".data domain then linkedinRules path
      else if infixOfList "facebook.com".data domain ∨ infixOfList "fb.com".data domain
        then facebookRules path
      else if infixOfList "instagram.com".data domain then instagramRules path
      else none
    match plat with
    | some u => ⟨u⟩
    | none =>
      match genericFallback path with
      | some u => ⟨u⟩
      | none => ""

/-- `SearchResult` dataclass: title, link, snippet, score (default 0). -/
structure SearchResult where
  title : String
  link : String
  snippet : String
  score : Int := 0
deriving DecidableEq, Repr

/-- `NameParts` dictionary produced by `parse_name`. -/
structure NameParts where
  full : String
  first : String
  middle : String
  last : String
  f_initial : String
  m_initial : String
  l_initial : String
deriving DecidableEq, Repr

/-- Embedding of `PersonSearch.fuzzy_name_match`: false on empty text or empty
candidates, else lowercase the text and test whether some candidate reaches the
threshold. `sim` abstracts the rapidfuzz similarity metric (0..100) used by
`process.extractOne`, whose result with `score_cutoff=threshold` is not `None`
exactly when some candidate scores at least the threshold. -/
def fuzzy_name_match (sim : String → String → Nat) (text : String)
    (candidates : List String) (threshold : Nat) : Bool :=
  if text = "" ∨ candidates = [] then false
  else
    let t := lowerStr text
    candidates.any (fun c => decide (threshold ≤ sim t c))

/-- The known social platforms checked for the score boost. -/
def platforms : List String := ["linkedin.com", "facebook.com", "instagram.com"]

/-- Embedding of `PersonSearch.compute_score`: base 3 on a username fuzzy match
at threshold 80, else base 1 on a title+snippet fuzzy match at threshold 70;
unconditional +1 when the lowercased link contains a known platform; +1 per
extra keyword found in the lowercased title+snippet, only when keywords were
given (a nonempty list, Python truthiness) and the score so far is positive. -/
def compute_score (sim : String → String → Nat) (result : SearchResult)
    (name_variations : List String) (extra_keywords : Option (List String)) : Int :=
  let extracted_username := extract_username_from_url result.link
  let score : Int :=
    if extracted_username ≠ "" ∧
        fuzzy_name_match sim extracted_username name_variations 80 = true
    then 3 else 0
  let score : Int :=
    if score = 0 ∧
        fuzzy_name_match sim (lowerStr (result.title ++ " " ++ result.snippet))
          name_variations 70 = true
    then 1 else score
  let link_lower := lowerStr result.link
  let score : Int :=
    if platforms.any (fun p => containsSub link_lower p) then score + 1 else score
  match extra_keywords with
  | none => score
  | some ks =>
    if ks ≠ [] ∧ 0 < score then
      let text := lowerStr (result.title ++ " " ++ result.snippet)
      score + (ks.countP (fun k => containsSub text (lowerStr k)) : Nat)
    else score

/-- The separator alphabet of `generate_name_variations`. -/
def separators : List String := ["", ".", "-", "_"]

/-- Embedding of `PersonSearch.generate_name_variations`. The Python set of
candidates is modelled as the list of all inserted strings, in insertion order
(membership-equivalent to the set; the claims are about membership only), and
the final comprehension `[c for c in candidates if c and len(c) > 1]` as a
filter. -/
def generate_name_variations (parts : NameParts) : List String :=
  let first := if parts.first ≠ "" then lowerStr parts.first else ""
  let middle := if parts.middle ≠ "" then lowerStr parts.middle else ""
  let last := if parts.last ≠ "" then lowerStr parts.last else ""
  let f_initial := if parts.f_initial ≠ "" then lowerStr parts.f_initial else ""
  let m_initial := if parts.m_initial ≠ "" then lowerStr parts.m_initial else ""
  let l_initial := if parts.l_initial ≠ "" then lowerStr parts.l_initial else ""
  let candidates :=
    (if first ≠ "" then [first] else []) ++
    (if last ≠ "" then [last] else []) ++
    (if middle ≠ "" then [middle] else []) ++
    (if first ≠ "" ∧ last ≠ "" then
      separators.flatMap (fun sep => [first ++ sep ++ last, last ++ sep ++ first])
     else []) ++
    (if f_initial ≠ "" ∧ last ≠ "" then
      separators.flatMap
        (fun sep => [f_initial ++ sep ++ last, last ++ sep ++ f_initial])
     else []) ++
    (if first ≠ "" ∧ l_initial ≠ "" then
      separators.flatMap
        (fun sep => [first ++ sep ++ l_initial, l_initial ++ sep ++ first])
     else []) ++
    (if f_initial ≠ "" ∧ l_initial ≠ "" then
      separators.flatMap
        (fun sep => [f_initial ++ sep ++ l_initial, l_initial ++ sep ++ f_initial])
     else []) ++
    (if first ≠ "" ∧ middle ≠ "" ∧ last ≠ "" then
      separators.flatMap (fun s1 => separators.flatMap (fun s2 =>
        [first ++ s1 ++ middle ++ s2 ++ last,
         first ++ s1 ++ m_initial ++ s2 ++ last]))
     else []) ++
    (if f_initial ≠ "" ∧ middle ≠ "" ∧ last ≠ "" then
      separators.flatMap (fun s1 => separators.flatMap (fun s2 =>
        [f_initial ++ s1 ++ middle ++ s2 ++ last,
         f_initial ++ s1 ++ m_initial ++ s2 ++ last]))
     else []) ++
    (if first ≠ "" ∧ m_initial ≠ "" ∧ last ≠ "" then
      separators.flatMap (fun s1 => separators.flatMap (fun s2 =>
        [first ++ s1 ++ m_initial ++ s2 ++ last]))
     else []) ++
    (if f_initial ≠ "" ∧ m_initial ≠ "" ∧ l_initial ≠ "" then
      separators.flatMap (fun s1 => separators.flatMap (fun s2 =>
        [f_initial ++ s1 ++ m_initial ++ s2 ++ l_initial]))
     else []) ++
    (if parts.full ≠ "" then
      ((separators.filter (fun s => decide (s ≠ ""))).map
        (fun sep => replaceSpaces (lowerStr parts.full) sep)) ++
        [replaceSpaces (lowerStr parts.full) ""]
     else []) ++
    (if first ≠ "" ∧ last ≠ "" then
      separators.map (fun sep => last ++ sep ++ first)
     else [])
  candidates.filter (fun c => decide (c ≠ "" ∧ 1 < c.length))

/-- The loop of `remove_duplicates`, with the `seen_urls` set modelled as the
list of links seen so far (membership-equivalent). -/
def removeDupsAux (seen : List String) : List SearchResult → List SearchResult
  | [] => []
  | r :: rest =>
    if r.link ∈ seen then removeDupsAux seen rest
    else r :: removeDupsAux (r.link :: seen) rest

/-- Embedding of `PersonSearch.remove_duplicates`. -/
def remove_duplicates (results : List SearchResult) : List SearchResult :=
  removeDupsAux [] results

/-- The deduplication contract stated in the spec's own words, for comparison
with `remove_duplicates`: a result is kept iff its link has not appeared among
the results earlier in the sequence, and kept results stay in order. -/
def dedupeSpecAux (pre : List SearchResult) : List SearchResult → List SearchResult
  | [] => []
  | r :: rest =>
    if r.link ∈ pre.map SearchResult.link then dedupeSpecAux (pre ++ [r]) rest
    else r :: dedupeSpecAux (pre ++ [r]) rest

/-- The spec's deduplication applied from an empty history. -/
def dedupeSpec (results : List SearchResult) : List SearchResult :=
  dedupeSpecAux [] results

/-- Embedding of the ranking step
`scored_results.sort(key=lambda x: x.score, reverse=True)`: Python's sort is
stable and `reverse=True` keeps equal-key elements in their original order, so
it is modelled as a stable insertion sort with the descending-score relation. -/
def rank (results : List SearchResult) : List SearchResult :=
  List.insertionSort (fun a b => b.score ≤ a.score) results

/-- A trivial similarity metric used to instantiate witnesses. -/
def zeroSim : String → String → Nat := fun _ _ => 0

/-- No uppercase ASCII letter occurs in the string. -/
def NoUpper (s : String) : Prop := ∀ c ∈ s.data, ¬ isUpperAZ c

instance (s : String) : Decidable (NoUpper s) := by
  unfold NoUpper; infer_instance


/-- C7: fuzzy matching on empty input is false: for every metric, threshold and
inputs, `fuzzy_name_match` returns false whenever the text is empty or the
candidate list is empty (the function is total, so it cannot raise). -/
theorem fuzzy_name_match_empty_false (sim : String → String → Nat)
    (text : String) (candidates : List String) (threshold : Nat)
    (h : text = "" ∨ candidates = []) :
    fuzzy_name_match sim text candidates threshold = false := by
  unfold fuzzy_name_match
  rw [if_pos h]

theorem fuzzy_name_match_empty_false_witness :
    fuzzy_name_match zeroSim "" ["janedoe"] 75 = false ∧
      fuzzy_name_match zeroSim "janedoe" [] 70 = false :=
  ⟨fuzzy_name_match_empty_false zeroSim "" ["janedoe"] 75 (Or.inl rfl),
   fuzzy_name_match_empty_false zeroSim "janedoe" [] 70 (Or.inr rfl)⟩

/-- C2: contrary to the claim, content-type paths whose marker is the first
path segment do yield a handle: the rejection tests compare `"/groups/"` (with
a leading slash) against a path already stripped of its leading slash, so they
never fire for a leading content segment, and the generic fallback then returns
the content identifier. -/
theorem extract_username_content_links_leak :
    extract_username_from_url "https://facebook.com/groups/somegroup" = "somegroup" ∧
      extract_username_from_url "https://instagram.com/p/ABC123/" = "abc123" ∧
      "somegroup" ≠ "" ∧ "abc123" ≠ "" := by
  refine ⟨by decide, by decide, by decide, by decide⟩

/-- C3 counterexample: a LinkedIn handle with no numeric suffix is not returned
intact: the suffix-stripping regex `-[0-9a-z]+$` also eats `-doe`. -/
theorem extract_username_no_suffix_not_intact :
    extract_username_from_url "https://www.linkedin.com/in/jane-doe/" = "jane" ∧
      "jane" ≠ "jane-doe" := by
  refine ⟨by decide, by decide⟩

/-- C3 amended: for LinkedIn `/in/<h>` URLs the extraction strips the entire
trailing run `-[0-9a-z]+` (the last hyphen followed only by ASCII digits or
lowercase letters), not only numeric suffixes: `jane-doe-3b2f1a9` becomes
`jane-doe`, but `jane-doe` becomes `jane`; a captured handle is returned
unchanged exactly when it carries no such suffix, e.g. when it contains no
hyphen at all. -/
theorem extract_username_linkedin_suffix_strip :
    extract_username_from_url "https://www.linkedin.com/in/jane-doe-3b2f1a9/" = "jane-doe" ∧
      extract_username_from_url "https://www.linkedin.com/in/jane-doe/" = "jane" ∧
      extract_username_from_url "https://www.linkedin.com/in/janedoe/" = "janedoe" ∧
      ∀ u : List Char, '-' ∉ u → stripNumericSuffix u = u := by
  refine ⟨by decide, by decide, by decide, ?_⟩
  intro u hu
  simp only [stripNumericSuffix]
  split
  · next tail heq =>
    exact absurd ((List.mem_reverse).mp
      ((List.drop_sublist _ _).mem (heq ▸ List.mem_cons_self _ _))) hu
  · rfl

theorem extract_username_linkedin_suffix_strip_witness :
    stripNumericSuffix "janedoe".data = "janedoe".data :=
  extract_username_linkedin_suffix_strip.2.2.2 "janedoe".data (by decide)

/-- C1 counterexample: a result whose handle and text match nothing still
scores 1 (not 0) when the link contains a known platform — the platform bonus
is unconditional, so a platform-only match is not discarded. -/
theorem compute_score_platform_only_scores_one :
    fuzzy_name_match zeroSim
        (extract_username_from_url "https://linkedin.com/in/janedoe") [] 80 = false ∧
      fuzzy_name_match zeroSim (lowerStr ("t" ++ " " ++ "s")) [] 70 = false ∧
      compute_score zeroSim ⟨"t", "https://linkedin.com/in/janedoe", "s", 0⟩ [] none = 1 := by
  refine ⟨by decide, by decide, by decide⟩

/-- C1 amended: when the extracted handle does not fuzzy-match the variations
at threshold 80 and the lowercased title+snippet does not fuzzy-match at
threshold 70 (base score 0), `compute_score` with no extra keywords returns 1
when the lowercased link contains a known social platform and 0 otherwise; the
platform bonus is added even on a zero base, so a platform-only match scores 1
and is kept, not discarded. -/
theorem compute_score_zero_base_platform (sim : String → String → Nat)
    (result : SearchResult) (vars : List String)
    (h1 : fuzzy_name_match sim (extract_username_from_url result.link) vars 80 = false)
    (h2 : fuzzy_name_match sim (lowerStr (result.title ++ " " ++ result.snippet))
      vars 70 = false) :
    compute_score sim result vars none =
      if platforms.any (fun p => containsSub (lowerStr result.link) p) then 1 else 0 := by
  simp [compute_score, h1, h2]

theorem compute_score_zero_base_platform_witness :
    compute_score zeroSim ⟨"t", "https://linkedin.com/in/janedoe", "s", 0⟩ [] none =
      if platforms.any (fun p =>
          containsSub (lowerStr (SearchResult.link
            ⟨"t", "https://linkedin.com/in/janedoe", "s", 0⟩)) p) then 1 else 0 :=
  compute_score_zero_base_platform zeroSim
    ⟨"t", "https://linkedin.com/in/janedoe", "s", 0⟩ [] (by decide) (by decide)

/-- C8: with no extra keywords the score is an integer between 0 and 4: the
base contribution is 0, 1 or 3 and the platform bonus adds at most 1. -/
theorem compute_score_bounds (sim : String → String → Nat)
    (result : SearchResult) (vars : List String) :
    0 ≤ compute_score sim result vars none ∧ compute_score sim result vars none ≤ 4 := by
  constructor <;> (simp only [compute_score]; split_ifs <;> omega)

theorem removeDupsAux_eq_specAux :
    ∀ (rs : List SearchResult) (seen : List String) (pre : List SearchResult),
      (∀ s, s ∈ seen ↔ s ∈ pre.map SearchResult.link) →
      removeDupsAux seen rs = dedupeSpecAux pre rs := by
  intro rs
  induction rs with
  | nil => intro seen pre h; rfl
  | cons r rest ih =>
    intro seen pre h
    unfold removeDupsAux dedupeSpecAux
    by_cases hm : r.link ∈ seen
    · rw [if_pos hm, if_pos ((h r.link).mp hm)]
      apply ih
      intro s
      rw [h s, List.map_append, List.mem_append]
      constructor
      · exact fun hs => Or.inl hs
      · rintro (hs | hs)
        · exact hs
        · simp only [List.map_cons, List.map_nil, List.mem_singleton] at hs
          exact hs ▸ (h r.link).mp hm
    · rw [if_neg hm, if_neg (fun hc => hm ((h r.link).mpr hc))]
      congr 1
      apply ih
      intro s
      rw [List.mem_cons, h s, List.map_append, List.mem_append]
      simp only [List.map_cons, List.map_nil, List.mem_singleton]
      tauto

theorem removeDupsAux_nodup :
    ∀ (rs : List SearchResult) (seen : List String),
      ((removeDupsAux seen rs).map SearchResult.link).Nodup ∧
        ∀ s ∈ (removeDupsAux seen rs).map SearchResult.link, s ∉ seen := by
  intro rs
  induction rs with
  | nil => intro seen; simp [removeDupsAux]
  | cons r rest ih =>
    intro seen
    unfold removeDupsAux
    by_cases hm : r.link ∈ seen
    · rw [if_pos hm]; exact ih seen
    · rw [if_neg hm]
      obtain ⟨h1, h2⟩ := ih (r.link :: seen)
      refine ⟨?_, ?_⟩
      · simp only [List.map_cons, List.nodup_cons]
        exact ⟨fun hc => (h2 _ hc) (List.mem_cons_self _ _), h1⟩
      · intro s hs hsin
        simp only [List.map_cons, List.mem_cons] at hs
        rcases hs with rfl | hs
        · exact hm hsin
        · exact h2 s hs (List.mem_cons_of_mem _ hsin)

theorem removeDupsAux_length :
    ∀ (rs : List SearchResult) (seen : List String),
      (removeDupsAux seen rs).length ≤ rs.length := by
  intro rs
  induction rs with
  | nil => intro seen; simp [removeDupsAux]
  | cons r rest ih =>
    intro seen
    unfold removeDupsAux
    by_cases hm : r.link ∈ seen
    · rw [if_pos hm]
      exact Nat.le_succ_of_le (ih seen)
    · rw [if_neg hm]
      simpa using Nat.succ_le_succ (ih (r.link :: seen))

/-- C5: deduplication agrees with the spec's description (a result is kept iff
its link has not appeared earlier, in first-seen order), its output has no two
results with equal link, and its length never exceeds the input's. -/
theorem remove_duplicates_spec (rs : List SearchResult) :
    remove_duplicates rs = dedupeSpec rs ∧
      ((remove_duplicates rs).map SearchResult.link).Nodup ∧
      (remove_duplicates rs).length ≤ rs.length :=
  ⟨removeDupsAux_eq_specAux rs [] [] (by simp),
   (removeDupsAux_nodup rs []).1,
   removeDupsAux_length rs []⟩

theorem removeDupsAux_of_nodup :
    ∀ (rs : List SearchResult) (seen : List String),
      ((rs.map SearchResult.link).Nodup) →
      (∀ s ∈ seen, s ∉ rs.map SearchResult.link) →
      removeDupsAux seen rs = rs := by
  intro rs
  induction rs with
  | nil => intro seen _ _; rfl
  | cons r rest ih =>
    intro seen h1 h2
    simp only [List.map_cons, List.nodup_cons] at h1
    unfold removeDupsAux
    rw [if_neg (fun hm => h2 _ hm (by simp))]
    congr 1
    apply ih
    · exact h1.2
    · intro s hs
      rcases List.mem_cons.mp hs with rfl | hs
      · exact h1.1
      · exact fun hc => h2 s hs (by simp [hc])

/-- C9: deduplication is idempotent — its output has pairwise distinct links,
and on any sequence with pairwise distinct links it is the identity. -/
theorem remove_duplicates_idempotent (xs : List SearchResult) :
    remove_duplicates (remove_duplicates xs) = remove_duplicates xs :=
  removeDupsAux_of_nodup (remove_duplicates xs) []
    (removeDupsAux_nodup xs []).1 (by intro s hs; cases hs)

theorem filter_orderedInsert (s : Int) (a : SearchResult) :
    ∀ l : List SearchResult,
      (List.orderedInsert (fun a b => b.score ≤ a.score) a l).filter
          (fun x => decide (x.score = s)) =
        if a.score = s then
          a :: l.filter (fun x => decide (x.score = s))
        else l.filter (fun x => decide (x.score = s)) := by
  intro l
  induction l with
  | nil =>
    by_cases ha : a.score = s <;>
      simp [List.orderedInsert, List.filter_cons, ha]
  | cons b t ih =>
    simp only [List.orderedInsert]
    by_cases hr : b.score ≤ a.score
    · rw [if_pos hr]
      by_cases ha : a.score = s <;> simp [List.filter_cons, ha]
    · rw [if_neg hr]
      by_cases ha : a.score = s
      · have hb : ¬ (b.score = s) := by omega
        simp [List.filter_cons, hb, ih, ha]
      · by_cases hb : b.score = s <;> simp [List.filter_cons, hb, ih, ha]

theorem filter_rank (s : Int) :
    ∀ l : List SearchResult,
      (rank l).filter (fun x => decide (x.score = s)) =
        l.filter (fun x => decide (x.score = s)) := by
  intro l
  induction l with
  | nil => rfl
  | cons a t ih =>
    show (List.orderedInsert _ a (rank t)).filter _ = _
    rw [filter_orderedInsert]
    by_cases ha : a.score = s <;> simp [List.filter_cons, ha, ih]

/-- C4: the ranked output is a permutation of the input; scores are descending
along the output; and the sort is stable — for every score value, the sublist
of results carrying that score is unchanged. -/
theorem rank_perm_sorted_stable (l : List SearchResult) :
    (rank l).Perm l ∧
      (∀ i j : Fin (rank l).length, i < j →
        ((rank l).get j).score ≤ ((rank l).get i).score) ∧
      (∀ s : Int, (rank l).filter (fun x => decide (x.score = s)) =
        l.filter (fun x => decide (x.score = s))) := by
  haveI hT : IsTotal SearchResult (fun a b => b.score ≤ a.score) :=
    ⟨fun a b => le_total b.score a.score⟩
  haveI hR : IsTrans SearchResult (fun a b => b.score ≤ a.score) :=
    ⟨fun a b c hab hbc => le_trans hbc hab⟩
  refine ⟨List.perm_insertionSort _ l, ?_, fun s => filter_rank s l⟩
  intro i j hij
  exact (List.sorted_insertionSort _ l).rel_get_of_lt hij

theorem rank_perm_sorted_stable_witness :
    (rank [({ title := "a", link := "1", snippet := "", score := 1 } : SearchResult),
           { title := "b", link := "2", snippet := "", score := 2 }]).Perm
        [({ title := "a", link := "1", snippet := "", score := 1 } : SearchResult),
         { title := "b", link := "2", snippet := "", score := 2 }] ∧
      ((rank [({ title := "a", link := "1", snippet := "", score := 1 } : SearchResult),
              { title := "b", link := "2", snippet := "", score := 2 }]).get
          ⟨1, by decide⟩).score ≤
        ((rank [({ title := "a", link := "1", snippet := "", score := 1 } : SearchResult),
                { title := "b", link := "2", snippet := "", score := 2 }]).get
            ⟨0, by decide⟩).score :=
  ⟨(rank_perm_sorted_stable _).1,
   (rank_perm_sorted_stable _).2.1 ⟨0, by decide⟩ ⟨1, by decide⟩ (by decide)⟩


theorem lowerChar_not_upper (c : Char) : ¬ isUpperAZ (lowerChar c) := by
  unfold lowerChar isUpperAZ
  split
  · next h =>
    have hval : (c.toNat + 32).isValidChar := Or.inl (by omega)
    have hv : (Char.ofNat (c.toNat + 32)).toNat = c.toNat + 32 := by
      unfold Char.ofNat
      rw [dif_pos hval]
      rfl
    rw [hv]
    omega
  · next h => exact h

theorem noUpper_lowerStr (s : String) : NoUpper (lowerStr s) := by
  intro c hc
  simp only [lowerStr] at hc
  obtain ⟨c', _, rfl⟩ := List.mem_map.mp hc
  exact lowerChar_not_upper c'

theorem noUpper_append {a b : String} (ha : NoUpper a) (hb : NoUpper b) :
    NoUpper (a ++ b) := by
  intro c hc
  rw [String.data_append, List.mem_append] at hc
  exact hc.elim (ha c) (hb c)

theorem noUpper_empty : NoUpper "" := by
  intro c hc
  cases hc


theorem noUpper_sep : ∀ x ∈ separators, NoUpper x := by
  decide

theorem noUpper_condLower (P : Prop) [Decidable P] (s : String) :
    NoUpper (if P then lowerStr s else "") := by
  split
  · exact noUpper_lowerStr s
  · exact noUpper_empty

theorem noUpper_replaceSpaces {s sep : String} (hs : NoUpper s)
    (hsep : NoUpper sep) : NoUpper (replaceSpaces s sep) := by
  intro c hc
  simp only [replaceSpaces] at hc
  obtain ⟨c', hc', hcm⟩ := List.mem_flatMap.mp hc
  by_cases h : c' = ' '
  · rw [if_pos h] at hcm
    exact hsep c hcm
  · rw [if_neg h] at hcm
    rw [List.mem_singleton] at hcm
    exact hcm ▸ hs c' hc'

theorem length_lowerStr (s : String) : (lowerStr s).length = s.length := by
  cases s with
  | mk data =>
    show (List.map lowerChar data).length = data.length
    exact List.length_map data lowerChar

theorem length_pos_of_ne_empty {s : String} (h : s ≠ "") : 0 < s.length := by
  cases s with
  | mk data =>
    cases data with
    | nil => exact absurd rfl h
    | cons c tl => simp [String.length]

theorem mem_ite_nil {α : Type} {P : Prop} [Decidable P] {l : List α} {a : α}
    (h : a ∈ if P then l else []) : a ∈ l := by
  split at h
  · exact h
  · cases h

theorem ne_empty_of_length_pos {s : String} (h : 0 < s.length) : s ≠ "" := by
  intro he
  subst he
  exact absurd h (by decide)

/-- C6: with nonempty first and last name the variation list is nonempty, and
every member of the output (for any input) has length > 1 and contains no
uppercase ASCII letter. -/
theorem generate_name_variations_props (parts : NameParts) :
    (parts.first ≠ "" → parts.last ≠ "" → generate_name_variations parts ≠ []) ∧
      (∀ v ∈ generate_name_variations parts, 1 < v.length ∧ NoUpper v) := by
  constructor
  · intro hf hl
    have e1 : (if parts.first ≠ "" then lowerStr parts.first else "") =
        lowerStr parts.first := if_pos hf
    have e2 : (if parts.last ≠ "" then lowerStr parts.last else "") =
        lowerStr parts.last := if_pos hl
    have g1 : lowerStr parts.first ≠ "" := by
      apply ne_empty_of_length_pos
      rw [length_lowerStr]
      exact length_pos_of_ne_empty hf
    have g2 : lowerStr parts.last ≠ "" := by
      apply ne_empty_of_length_pos
      rw [length_lowerStr]
      exact length_pos_of_ne_empty hl
    have hwlen : 1 < (lowerStr parts.first ++ "" ++ lowerStr parts.last).length := by
      have p1 := length_pos_of_ne_empty hf
      have p2 := length_pos_of_ne_empty hl
      simp only [String.length_append, length_lowerStr]
      have : ("" : String).length = 0 := rfl
      omega
    apply List.ne_nil_of_mem
      (a := lowerStr parts.first ++ "" ++ lowerStr parts.last)
    simp only [generate_name_variations]
    rw [e1, e2]
    apply List.mem_filter.mpr
    constructor
    · have h4 : (lowerStr parts.first ++ "" ++ lowerStr parts.last) ∈
          (if lowerStr parts.first ≠ "" ∧ lowerStr parts.last ≠ "" then
            separators.flatMap (fun sep =>
              [lowerStr parts.first ++ sep ++ lowerStr parts.last,
               lowerStr parts.last ++ sep ++ lowerStr parts.first])
          else []) := by
        rw [if_pos ⟨g1, g2⟩]
        exact List.mem_flatMap_of_mem
          (show ("" : String) ∈ separators by simp [separators])
          (List.mem_cons_self _ _)
      simp only [List.mem_append]
      tauto
    · rw [decide_eq_true_eq]
      exact ⟨ne_empty_of_length_pos (by omega), hwlen⟩
  · intro v hv
    simp only [generate_name_variations] at hv
    rw [List.mem_filter] at hv
    obtain ⟨hmem, hcond⟩ := hv
    rw [decide_eq_true_eq] at hcond
    refine ⟨hcond.2, ?_⟩
    have hfirst : NoUpper (if parts.first ≠ "" then lowerStr parts.first else "") :=
      noUpper_condLower _ _
    have hmiddle : NoUpper (if parts.middle ≠ "" then lowerStr parts.middle else "") :=
      noUpper_condLower _ _
    have hlast : NoUpper (if parts.last ≠ "" then lowerStr parts.last else "") :=
      noUpper_condLower _ _
    have hfi : NoUpper (if parts.f_initial ≠ "" then lowerStr parts.f_initial else "") :=
      noUpper_condLower _ _
    have hmi : NoUpper (if parts.m_initial ≠ "" then lowerStr parts.m_initial else "") :=
      noUpper_condLower _ _
    have hli : NoUpper (if parts.l_initial ≠ "" then lowerStr parts.l_initial else "") :=
      noUpper_condLower _ _
    have hfull : NoUpper (lowerStr parts.full) := noUpper_lowerStr _
    simp only [List.mem_append] at hmem
    rcases hmem with
      ((((((((((((h | h) | h) | h) | h) | h) | h) | h) | h) | h) | h) | h) | h)
    · rw [List.mem_singleton.mp (mem_ite_nil h)]
      exact hfirst
    · rw [List.mem_singleton.mp (mem_ite_nil h)]
      exact hlast
    · rw [List.mem_singleton.mp (mem_ite_nil h)]
      exact hmiddle
    · obtain ⟨sep, hsep, hv⟩ := List.mem_flatMap.mp (mem_ite_nil h)
      have hns := noUpper_sep sep hsep
      rcases List.mem_cons.mp hv with rfl | hv
      · exact noUpper_append (noUpper_append hfirst hns) hlast
      · rw [List.mem_singleton.mp hv]
        exact noUpper_append (noUpper_append hlast hns) hfirst
    · obtain ⟨sep, hsep, hv⟩ := List.mem_flatMap.mp (mem_ite_nil h)
      have hns := noUpper_sep sep hsep
      rcases List.mem_cons.mp hv with rfl | hv
      · exact noUpper_append (noUpper_append hfi hns) hlast
      · rw [List.mem_singleton.mp hv]
        exact noUpper_append (noUpper_append hlast hns) hfi
    · obtain ⟨sep, hsep, hv⟩ := List.mem_flatMap.mp (mem_ite_nil h)
      have hns := noUpper_sep sep hsep
      rcases List.mem_cons.mp hv with rfl | hv
      · exact noUpper_append (noUpper_append hfirst hns) hli
      · rw [List.mem_singleton.mp hv]
        exact noUpper_append (noUpper_append hli hns) hfirst
    · obtain ⟨sep, hsep, hv⟩ := List.mem_flatMap.mp (mem_ite_nil h)
      have hns := noUpper_sep sep hsep
      rcases List.mem_cons.mp hv with rfl | hv
      · exact noUpper_append (noUpper_append hfi hns) hli
      · rw [List.mem_singleton.mp hv]
        exact noUpper_append (noUpper_append hli hns) hfi
    · obtain ⟨s1, hs1, hv⟩ := List.mem_flatMap.mp (mem_ite_nil h)
      obtain ⟨s2, hs2, hv⟩ := List.mem_flatMap.mp hv
      have hn1 := noUpper_sep s1 hs1
      have hn2 := noUpper_sep s2 hs2
      rcases List.mem_cons.mp hv with rfl | hv
      · exact noUpper_append (noUpper_append (noUpper_append
          (noUpper_append hfirst hn1) hmiddle) hn2) hlast
      · rw [List.mem_singleton.mp hv]
        exact noUpper_append (noUpper_append (noUpper_append
          (noUpper_append hfirst hn1) hmi) hn2) hlast
    · obtain ⟨s1, hs1, hv⟩ := List.mem_flatMap.mp (mem_ite_nil h)
      obtain ⟨s2, hs2, hv⟩ := List.mem_flatMap.mp hv
      have hn1 := noUpper_sep s1 hs1
      have hn2 := noUpper_sep s2 hs2
      rcases List.mem_cons.mp hv with rfl | hv
      · exact noUpper_append (noUpper_append (noUpper_append
          (noUpper_append hfi hn1) hmiddle) hn2) hlast
      · rw [List.mem_singleton.mp hv]
        exact noUpper_append (noUpper_append (noUpper_append
          (noUpper_append hfi hn1) hmi) hn2) hlast
    · obtain ⟨s1, hs1, hv⟩ := List.mem_flatMap.mp (mem_ite_nil h)
      obtain ⟨s2, hs2, hv⟩ := List.mem_flatMap.mp hv
      have hn1 := noUpper_sep s1 hs1
      have hn2 := noUpper_sep s2 hs2
      rw [List.mem_singleton.mp hv]
      exact noUpper_append (noUpper_append (noUpper_append
        (noUpper_append hfirst hn1) hmi) hn2) hlast
    · obtain ⟨s1, hs1, hv⟩ := List.mem_flatMap.mp (mem_ite_nil h)
      obtain ⟨s2, hs2, hv⟩ := List.mem_flatMap.mp hv
      have hn1 := noUpper_sep s1 hs1
      have hn2 := noUpper_sep s2 hs2
      rw [List.mem_singleton.mp hv]
      exact noUpper_append (noUpper_append (noUpper_append
        (noUpper_append hfi hn1) hmi) hn2) hli
    · rcases List.mem_append.mp (mem_ite_nil h) with hv | hv
      · obtain ⟨sep, hsep, heq⟩ := List.mem_map.mp hv
        rw [← heq]
        exact noUpper_replaceSpaces hfull (noUpper_sep sep (List.mem_of_mem_filter hsep))
      · rw [List.mem_singleton.mp hv]
        exact noUpper_replaceSpaces hfull noUpper_empty
    · obtain ⟨sep, hsep, heq⟩ := List.mem_map.mp (mem_ite_nil h)
      rw [← heq]
      exact noUpper_append (noUpper_append hlast (noUpper_sep sep hsep)) hfirst

theorem generate_name_variations_props_witness :
    generate_name_variations
        { full := "Jane Doe", first := "Jane", middle := "", last := "Doe",
          f_initial := "J", m_initial := "", l_initial := "D" } ≠ [] :=
  (generate_name_variations_props _).1 (by decide) (by decide)


theorem splitOnChar_ne_nil (sep : Char) : ∀ cs, splitOnChar sep cs ≠ [] := by
  intro cs
  cases cs with
  | nil => simp [splitOnChar]
  | cons c tl =>
    rcases h : splitOnChar sep tl with _ | ⟨h0, t0⟩
    · simp [splitOnChar, h]
    · simp only [splitOnChar, h]
      split <;> simp

theorem splitOnChar_mem (sep : Char) :
    ∀ (cs : List Char) (s : List Char), s ∈ splitOnChar sep cs →
      ∀ c ∈ s, c ∈ cs ∧ c ≠ sep := by
  intro cs
  induction cs with
  | nil =>
    intro s hs c hc
    simp only [splitOnChar, List.mem_singleton] at hs
    subst hs
    cases hc
  | cons b tl ih =>
    intro s hs c hc
    rcases h : splitOnChar sep tl with _ | ⟨h0, t0⟩
    · exact absurd h (splitOnChar_ne_nil sep tl)
    · simp only [splitOnChar, h] at hs
      by_cases hb : b = sep
      · rw [if_pos hb] at hs
        rcases List.mem_cons.mp hs with rfl | hs
        · cases hc
        · have := ih s (by rw [h]; exact hs) c hc
          exact ⟨List.mem_cons_of_mem _ this.1, this.2⟩
      · rw [if_neg hb] at hs
        rcases List.mem_cons.mp hs with rfl | hs
        · rcases List.mem_cons.mp hc with rfl | hc
          · exact ⟨List.mem_cons_self _ _, hb⟩
          · have := ih h0 (by rw [h]; exact List.mem_cons_self h0 t0) c hc
            exact ⟨List.mem_cons_of_mem _ this.1, this.2⟩
        · have := ih s (by rw [h]; exact List.mem_cons_of_mem h0 hs) c hc
          exact ⟨List.mem_cons_of_mem _ this.1, this.2⟩

theorem mem_slashRun_props {c : Char} {cs : List Char}
    (hc : c ∈ cs.takeWhile (fun d => decide (d ≠ '/' ∧ d ≠ '?'))) :
    c ∈ cs ∧ c ≠ '/' ∧ c ≠ '?' := by
  have hb := List.mem_takeWhile_imp hc
  rw [decide_eq_true_eq] at hb
  exact ⟨List.Sublist.mem hc (List.takeWhile_sublist _), hb⟩

theorem searchLit_sound (lit : List Char) :
    ∀ (cs r : List Char), searchLit lit cs = some r →
      r ≠ [] ∧ ∀ c ∈ r, c ∈ cs ∧ c ≠ '/' ∧ c ≠ '?' := by
  intro cs
  induction cs with
  | nil => intro r h; simp [searchLit] at h
  | cons b tl ih =>
    intro r h
    simp only [searchLit] at h
    by_cases hcond : lit <+: (b :: tl) ∧
        ((b :: tl).drop lit.length).takeWhile
          (fun d => decide (d ≠ '/' ∧ d ≠ '?')) ≠ []
    · rw [if_pos hcond] at h
      injection h with h
      subst h
      refine ⟨hcond.2, ?_⟩
      intro c hc
      obtain ⟨hm, hp⟩ := mem_slashRun_props hc
      exact ⟨List.Sublist.mem hm (List.drop_sublist _ _), hp⟩
    · rw [if_neg hcond] at h
      obtain ⟨h1, h2⟩ := ih r h
      exact ⟨h1, fun c hc => ⟨List.mem_cons_of_mem _ (h2 c hc).1, (h2 c hc).2⟩⟩

theorem searchLit2_sound (l1 l2 : List Char) :
    ∀ (cs r : List Char), searchLit2 l1 l2 cs = some r →
      r ≠ [] ∧ ∀ c ∈ r, c ∈ cs ∧ c ≠ '/' ∧ c ≠ '?' := by
  intro cs
  induction cs with
  | nil => intro r h; simp [searchLit2] at h
  | cons b tl ih =>
    intro r h
    simp only [searchLit2] at h
    by_cases hcond : l1 <+: (b :: tl) ∧
        ((b :: tl).drop l1.length).takeWhile
          (fun d => decide (d ≠ '/' ∧ d ≠ '?')) ≠ []
    · rw [if_pos hcond] at h
      injection h with h
      subst h
      refine ⟨hcond.2, ?_⟩
      intro c hc
      obtain ⟨hm, hp⟩ := mem_slashRun_props hc
      exact ⟨List.Sublist.mem hm (List.drop_sublist _ _), hp⟩
    · rw [if_neg hcond] at h
      by_cases hcond2 : l2 <+: (b :: tl) ∧
          ((b :: tl).drop l2.length).takeWhile
            (fun d => decide (d ≠ '/' ∧ d ≠ '?')) ≠ []
      · rw [if_pos hcond2] at h
        injection h with h
        subst h
        refine ⟨hcond2.2, ?_⟩
        intro c hc
        obtain ⟨hm, hp⟩ := mem_slashRun_props hc
        exact ⟨List.Sublist.mem hm (List.drop_sublist _ _), hp⟩
      · rw [if_neg hcond2] at h
        obtain ⟨h1, h2⟩ := ih r h
        exact ⟨h1, fun c hc => ⟨List.mem_cons_of_mem _ (h2 c hc).1, (h2 c hc).2⟩⟩

theorem stripNumericSuffix_subset (u : List Char) :
    ∀ c ∈ stripNumericSuffix u, c ∈ u := by
  intro c hc
  simp only [stripNumericSuffix] at hc
  split at hc
  · split at hc
    · rw [List.mem_reverse] at hc
      exact List.mem_reverse.mp (List.Sublist.mem hc (List.drop_sublist _ _))
    · exact hc
  · exact hc

theorem stripSlashes_subset (cs : List Char) : ∀ c ∈ stripSlashes cs, c ∈ cs := by
  intro c hc
  unfold stripSlashes at hc
  rw [List.mem_reverse] at hc
  have h1 : c ∈ (cs.dropWhile (fun c => decide (c = '/'))).reverse :=
    List.Sublist.mem hc (List.dropWhile_sublist _)
  rw [List.mem_reverse] at h1
  exact List.Sublist.mem h1 (List.dropWhile_sublist _)

theorem lastSegPart_subset (cs : List Char) : ∀ c ∈ lastSegPart cs, c ∈ cs := by
  intro c hc
  unfold lastSegPart at hc
  rw [List.mem_reverse] at hc
  exact List.mem_reverse.mp (List.Sublist.mem hc (List.takeWhile_sublist _))

theorem splitParams_subset (cs : List Char) : ∀ c ∈ splitParams cs, c ∈ cs := by
  intro c hc
  unfold splitParams at hc
  split at hc
  · split at hc
    · split at hc
      · rcases List.mem_append.mp hc with h | h
        · exact List.Sublist.mem h (List.take_sublist _ _)
        · exact lastSegPart_subset cs c (List.Sublist.mem h (List.takeWhile_sublist _))
      · exact hc
    · exact List.Sublist.mem hc (List.takeWhile_sublist _)
  · exact hc

theorem cleanUrl_subset (cs0 : List Char) : ∀ c ∈ cleanUrl cs0, c ∈ cs0 := by
  intro c hc
  unfold cleanUrl at hc
  exact List.Sublist.mem (List.Sublist.mem hc (List.filter_sublist _))
    (List.dropWhile_sublist _)

theorem afterScheme_subset (cs : List Char) : ∀ c ∈ afterScheme cs, c ∈ cs := by
  intro c hc
  unfold afterScheme at hc
  split at hc
  · exact List.Sublist.mem hc (List.drop_sublist _ _)
  · exact hc

theorem afterNetloc_subset (rest : List Char) : ∀ c ∈ afterNetloc rest, c ∈ rest := by
  intro c hc
  unfold afterNetloc at hc
  split at hc
  · exact List.Sublist.mem
      (List.Sublist.mem hc (List.drop_sublist _ _)) (List.drop_sublist _ _)
  · exact hc

theorem urlparse_path_subset (cs0 : List Char) :
    ∀ c ∈ (urlparseChars cs0).path, c ∈ cs0 := by
  intro c hc
  simp only [urlparseChars] at hc
  have hc1 := splitParams_subset _ c hc
  have hc2 := List.Sublist.mem hc1 (List.takeWhile_sublist _)
  have hc3 := List.Sublist.mem hc2 (List.takeWhile_sublist _)
  exact cleanUrl_subset cs0 c
    (afterScheme_subset _ c (afterNetloc_subset _ c hc3))

theorem lastSegOf_sound {cs u : List Char} (h : lastSegOf cs = some u) :
    ∀ c ∈ u, c ∈ cs ∧ c ≠ '/' := by
  intro c hc
  have hm := List.mem_of_getLast?_eq_some h
  have hm2 := List.mem_of_mem_filter hm
  exact splitOnChar_mem '/' cs u hm2 c hc

theorem tryLinkedinPat_sound {cap : Option (List Char)} {u : List Char}
    (h : tryLinkedinPat cap = some u) :
    ∃ c0, cap = some c0 ∧ u = stripNumericSuffix c0 ∧ 1 < u.length := by
  cases cap with
  | none => cases h
  | some c0 =>
    simp only [tryLinkedinPat] at h
    split at h
    · next hcond =>
      injection h with h
      exact ⟨c0, rfl, h.symm, h ▸ hcond.2⟩
    · cases h

theorem linkedinRules_sound {path u : List Char} (h : linkedinRules path = some u) :
    1 < u.length ∧ ∀ c ∈ u, c ∈ path ∧ c ≠ '/' := by
  have fromSearch : ∀ cap : List Char,
      searchLit cap ('/' :: path) = searchLit cap ('/' :: path) → True := fun _ _ => trivial
  unfold linkedinRules at h
  have handle : ∀ (c0 : List Char), u = stripNumericSuffix c0 → 1 < u.length →
      (∀ c ∈ c0, c ∈ '/' :: path ∧ c ≠ '/' ∧ c ≠ '?') →
      1 < u.length ∧ ∀ c ∈ u, c ∈ path ∧ c ≠ '/' := by
    intro c0 hu hlen hprops
    refine ⟨hlen, ?_⟩
    intro c hc
    have hc0 : c ∈ c0 := stripNumericSuffix_subset c0 c (hu ▸ hc)
    obtain ⟨hmem, hsl, _⟩ := hprops c hc0
    rcases List.mem_cons.mp hmem with rfl | hmem
    · exact absurd rfl hsl
    · exact ⟨hmem, hsl⟩
  split at h
  · next heq =>
    injection h with h
    subst h
    obtain ⟨c0, hcap, hu, hlen⟩ := tryLinkedinPat_sound heq
    exact handle c0 hu hlen (searchLit_sound _ _ _ hcap).2
  · split at h
    · next heq =>
      injection h with h
      subst h
      obtain ⟨c0, hcap, hu, hlen⟩ := tryLinkedinPat_sound heq
      exact handle c0 hu hlen (searchLit_sound _ _ _ hcap).2
    · obtain ⟨c0, hcap, hu, hlen⟩ := tryLinkedinPat_sound h
      refine ⟨hlen, ?_⟩
      intro c hc
      have hc0 : c ∈ c0 := stripNumericSuffix_subset c0 c (hu ▸ hc)
      exact lastSegOf_sound hcap c hc0

theorem tryFbPat_sound {cap : Option (List Char)} {u : List Char}
    (h : tryFbPat cap = some u) : cap = some u ∧ fbCheck u = true := by
  cases cap with
  | none => cases h
  | some c0 =>
    simp only [tryFbPat] at h
    split at h
    · next hchk =>
      injection h with h
      subst h
      exact ⟨rfl, hchk⟩
    · cases h

theorem fbCheck_len {u : List Char} (h : fbCheck u = true) : 1 < u.length := by
  simp only [fbCheck, Bool.and_eq_true, decide_eq_true_eq] at h
  exact h.2

theorem fbBareSeg_sound {path u : List Char} (h : fbBareSeg path = some u) :
    ∀ c ∈ u, c ∈ path ∧ c ≠ '/' := by
  simp only [fbBareSeg] at h
  split at h
  · injection h with h
    subst h
    intro c hc
    obtain ⟨hm, hp⟩ := mem_slashRun_props hc
    exact ⟨hm, hp.1⟩
  · cases h

theorem facebookRules_sound {path u : List Char} (h : facebookRules path = some u) :
    u = [] ∨ (1 < u.length ∧ ∀ c ∈ u, c ∈ path ∧ c ≠ '/') := by
  have handle : ∀ (c0 : List Char), u = c0 →
      (∀ c ∈ c0, c ∈ '/' :: path ∧ c ≠ '/' ∧ c ≠ '?') → 1 < u.length →
      u = [] ∨ (1 < u.length ∧ ∀ c ∈ u, c ∈ path ∧ c ≠ '/') := by
    intro c0 hu hprops hlen
    refine Or.inr ⟨hlen, ?_⟩
    intro c hc
    obtain ⟨hmem, hsl, _⟩ := hprops c (hu ▸ hc)
    rcases List.mem_cons.mp hmem with rfl | hmem
    · exact absurd rfl hsl
    · exact ⟨hmem, hsl⟩
  unfold facebookRules at h
  split at h
  · injection h with h
    exact Or.inl h.symm
  · split at h
    · next heq =>
      injection h with h
      subst h
      obtain ⟨hcap, hchk⟩ := tryFbPat_sound heq
      refine Or.inr ⟨fbCheck_len hchk, ?_⟩
      exact fbBareSeg_sound hcap
    · split at h
      · next heq =>
        injection h with h
        subst h
        obtain ⟨hcap, hchk⟩ := tryFbPat_sound heq
        exact handle _ rfl (searchLit_sound _ _ _ hcap).2 (fbCheck_len hchk)
      · obtain ⟨hcap, hchk⟩ := tryFbPat_sound h
        exact handle _ rfl (searchLit2_sound _ _ _ _ hcap).2 (fbCheck_len hchk)

theorem instagramRules_sound {path u : List Char} (h : instagramRules path = some u) :
    u = [] ∨ (1 < u.length ∧ ∀ c ∈ u, c ∈ path ∧ c ≠ '/') := by
  unfold instagramRules at h
  split at h
  · injection h with h
    exact Or.inl h.symm
  · split at h
    · cases h
    · next seg0 rest heq =>
      split at h
      · split at h
        · next hchk =>
          injection h with h
          subst h
          simp only [Bool.and_eq_true, decide_eq_true_eq] at hchk
          refine Or.inr ⟨hchk.2, ?_⟩
          intro c hc
          have hm : seg0 ∈ (splitOnChar '/' path).filter (fun s => decide (s ≠ [])) := by
            rw [heq]
            exact List.mem_cons_self _ _
          exact splitOnChar_mem '/' path seg0 (List.mem_of_mem_filter hm) c hc
        · cases h
      · cases h

theorem genericFallback_sound {path u : List Char}
    (h : genericFallback path = some u) :
    1 < u.length ∧ ∀ c ∈ u, c ∈ path ∧ c ≠ '/' := by
  unfold genericFallback at h
  have hok := List.find?_some h
  have hmem := List.mem_of_find?_eq_some h
  rw [List.mem_reverse] at hmem
  have hmem2 := List.mem_of_mem_filter hmem
  simp only [genericOk, Bool.and_eq_true, decide_eq_true_eq] at hok
  refine ⟨hok.1.2, ?_⟩
  intro c hc
  exact splitOnChar_mem '/' path u hmem2 c hc

/-- C10: for every input string, extraction returns either the empty string or
a handle of length > 1 that contains no `'/'` and no uppercase ASCII letter. -/
theorem extract_username_output_invariant (url : String) :
    extract_username_from_url url = "" ∨
      (1 < (extract_username_from_url url).length ∧
        ∀ c ∈ (extract_username_from_url url).data, c ≠ '/' ∧ ¬ isUpperAZ c) := by
  simp only [extract_username_from_url]
  split
  · exact Or.inl rfl
  · have hchar : ∀ c ∈ stripSlashes (urlparseChars (lowerStr url).data).path,
        ¬ isUpperAZ c := by
      intro c hc
      exact noUpper_lowerStr url c
        (urlparse_path_subset _ c (stripSlashes_subset _ c hc))
    split
    · next u heq =>
      split at heq
      · obtain ⟨hlen, hprop⟩ := linkedinRules_sound heq
        right
        refine ⟨hlen, ?_⟩
        intro c hc
        exact ⟨(hprop c hc).2, hchar c (hprop c hc).1⟩
      · split at heq
        · rcases facebookRules_sound heq with rfl | ⟨hlen, hprop⟩
          · exact Or.inl rfl
          · right
            refine ⟨hlen, ?_⟩
            intro c hc
            exact ⟨(hprop c hc).2, hchar c (hprop c hc).1⟩
        · split at heq
          · rcases instagramRules_sound heq with rfl | ⟨hlen, hprop⟩
            · exact Or.inl rfl
            · right
              refine ⟨hlen, ?_⟩
              intro c hc
              exact ⟨(hprop c hc).2, hchar c (hprop c hc).1⟩
          · cases heq
    · split
      · next u heq2 =>
        obtain ⟨hlen, hprop⟩ := genericFallback_sound heq2
        right
        refine ⟨hlen, ?_⟩
        intro c hc
        exact ⟨(hprop c hc).2, hchar c (hprop c hc).1⟩
      · exact Or.inl rfl

theorem extract_username_output_invariant_witness :
    extract_username_from_url "https://linkedin.com/in/janedoe" = "" ∨
      (1 < (extract_username_from_url "https://linkedin.com/in/janedoe").length ∧
        ∀ c ∈ (extract_username_from_url "https://linkedin.com/in/janedoe").data,
          c ≠ '/' ∧ ¬ isUpperAZ c) :=
  extract_username_output_invariant "https://linkedin.com/in/janedoe"
